import Mathlib

/-!
Verification of the batched bulk-mutation core of a spreadsheet-like data
workspace (rows, columns, cell values; CSV/contact import; AI enrichment;
email verification).  Each definition is a shallow embedding of one source
function; theorems settle the spec claims about them.
-/

namespace Claykiller

/-! ## Data model (src/lib/types.ts) -/

/-- The `TableType` from src/lib/types.ts: `'people' | 'companies'`. -/
inductive TableType where
  | people
  | companies
deriving DecidableEq, Repr

/-- The `CellValue` row from src/lib/types.ts: id, row_id, column_id, value, created_at. -/
structure CellValue where
  id : String
  row_id : String
  column_id : String
  value : String
  created_at : String
deriving DecidableEq, Repr

/-- The `ColumnDefinition` from src/lib/types.ts (fields used by the claims). -/
structure ColumnDefinition where
  id : String
  name : String
  field_key : String
  is_ai_column : Bool
deriving DecidableEq, Repr

/-- The `Row` record from src/lib/types.ts (fields used by the claims). -/
structure RowRec where
  id : String
  workspace_id : String
deriving DecidableEq, Repr

/-- The `DefaultColumn` from src/lib/types.ts: display name plus stable field key. -/
structure DefaultColumn where
  name : String
  field_key : String
deriving DecidableEq, Repr

/-- The `DEFAULT_COLUMNS` from src/lib/types.ts: the reserved default column set per
table type. -/
def DEFAULT_COLUMNS : TableType → List DefaultColumn
  | .people =>
    [⟨"First Name", "first_name"⟩,
     ⟨"Last Name", "last_name"⟩,
     ⟨"Email", "email"⟩,
     ⟨"Email Status", "email_status"⟩,
     ⟨"LinkedIn URL", "linkedin_url"⟩,
     ⟨"Company Name", "company_name"⟩,
     ⟨"Title", "title"⟩,
     ⟨"Company Website", "company_website"⟩]
  | .companies =>
    [⟨"Company Name", "company_name"⟩,
     ⟨"Website", "website"⟩,
     ⟨"Location", "location"⟩,
     ⟨"Headcount (# of Employees)", "headcount"⟩,
     ⟨"Description", "description"⟩,
     ⟨"Phone", "phone"⟩,
     ⟨"LinkedIn URL", "linkedin_url"⟩]

/-- The `isProtectedColumn` from src/lib/types.ts: a field key is protected when it
appears in the table type's default column set. -/
def isProtectedColumn (fieldKey : String) (tableType : TableType) : Bool :=
  (DEFAULT_COLUMNS tableType).any (fun col => col.field_key == fieldKey)

/-! ## Upsert Cache (workspace-context `upsertCellValue` local-state update)

`upsertCellValue` in src/lib/workspace-context.tsx (and the identical copy in
src/unnamed/part_006) updates the in-memory `cellValues` list: it looks up the
first entry whose `(row_id, column_id)` matches (`findIndex`), replaces that
entry's `value` in place if found, and otherwise appends a fresh entry with
empty `id`/`created_at`. -/

/-- Local-state update performed by `upsertCellValue`: replace the value of the
first entry at `(rowId, columnId)`, else append a new entry. -/
def upsertLocal (rowId columnId value : String) : List CellValue → List CellValue
  | [] => [⟨"", rowId, columnId, value, ""⟩]
  | cv :: rest =>
    if cv.row_id == rowId && cv.column_id == columnId then
      { cv with value := value } :: rest
    else
      cv :: upsertLocal rowId columnId value rest

/-- The `(row, column)` identity of a cell value. -/
def cellKey (cv : CellValue) : String × String :=
  (cv.row_id, cv.column_id)

/-- Cache invariant: at most one `CellValue` per `(row, column)` pair. -/
def cacheInv (cells : List CellValue) : Prop :=
  (cells.map cellKey).Nodup

/-- Number of entries stored at a given `(row, column)` key. -/
def countKey (cells : List CellValue) (rowId columnId : String) : Nat :=
  (cells.filter (fun cv => cv.row_id == rowId && cv.column_id == columnId)).length

/-- Value read back for a `(row, column)` key: the first matching entry. -/
def lookupCell (cells : List CellValue) (rowId columnId : String) : Option String :=
  (cells.find? (fun cv => cv.row_id == rowId && cv.column_id == columnId)).map (·.value)

lemma cellKey_mk_eq {cv : CellValue} {r c : String}
    (h : (cv.row_id == r && cv.column_id == c) = true) : cellKey cv = (r, c) := by
  simp only [Bool.and_eq_true, beq_iff_eq] at h
  simp [cellKey, h.1, h.2]

lemma cellKey_mk_ne {cv : CellValue} {r c : String}
    (h : (cv.row_id == r && cv.column_id == c) = false) : cellKey cv ≠ (r, c) := by
  intro hk
  simp only [cellKey, Prod.mk.injEq] at hk
  simp [hk.1, hk.2] at h

/-- When some entry matches the key, `upsertLocal` leaves the key list unchanged. -/
lemma map_cellKey_upsertLocal (r c v : String) (cells : List CellValue) :
    (upsertLocal r c v cells).map cellKey = cells.map cellKey ∨
    (upsertLocal r c v cells).map cellKey = cells.map cellKey ++ [(r, c)] := by
  induction cells with
  | nil =>
    right
    simp [upsertLocal, cellKey]
  | cons cv rest ih =>
    by_cases h : (cv.row_id == r && cv.column_id == c) = true
    · left
      simp only [upsertLocal, h, if_pos]
      simp [cellKey]
    · rw [Bool.not_eq_true] at h
      rcases ih with ih | ih
      · left
        simp only [upsertLocal, h, Bool.false_eq_true, if_neg, not_false_iff, List.map_cons, ih]
      · right
        simp only [upsertLocal, h, Bool.false_eq_true, if_neg, not_false_iff, List.map_cons, ih,
          List.cons_append]

/-- The `upsertLocal` preserves the at-most-one-entry-per-key invariant. -/
lemma cacheInv_upsertLocal (r c v : String) {cells : List CellValue}
    (hinv : cacheInv cells) : cacheInv (upsertLocal r c v cells) := by
  induction cells with
  | nil =>
    simp [cacheInv, upsertLocal]
  | cons cv rest ih =>
    rw [cacheInv, List.map_cons, List.nodup_cons] at hinv
    by_cases h : (cv.row_id == r && cv.column_id == c) = true
    · rw [cacheInv]
      simp only [upsertLocal, h, if_pos, List.map_cons, List.nodup_cons]
      refine ⟨?_, hinv.2⟩
      have : cellKey { cv with value := v } = cellKey cv := by simp [cellKey]
      rw [this]
      exact hinv.1
    · rw [Bool.not_eq_true] at h
      rw [cacheInv]
      simp only [upsertLocal, h, Bool.false_eq_true, if_neg, not_false_iff, List.map_cons,
        List.nodup_cons]
      refine ⟨?_, ih hinv.2⟩
      rcases map_cellKey_upsertLocal r c v rest with heq | heq
      · rw [heq]; exact hinv.1
      · rw [heq]
        intro hmem
        rcases List.mem_append.mp hmem with hmem | hmem
        · exact hinv.1 hmem
        · rw [List.mem_singleton] at hmem
          exact cellKey_mk_ne h hmem

/-- Under the invariant, after an upsert the key holds exactly one entry. -/
lemma countKey_upsertLocal (r c v : String) {cells : List CellValue}
    (hinv : cacheInv cells) : countKey (upsertLocal r c v cells) r c = 1 := by
  induction cells with
  | nil =>
    simp [countKey, upsertLocal, List.filter]
  | cons cv rest ih =>
    rw [cacheInv, List.map_cons, List.nodup_cons] at hinv
    by_cases h : (cv.row_id == r && cv.column_id == c) = true
    · simp only [upsertLocal, h, if_pos, countKey, List.filter]
      have hmatch : ((⟨cv.id, cv.row_id, cv.column_id, v, cv.created_at⟩ : CellValue).row_id == r
          && (⟨cv.id, cv.row_id, cv.column_id, v, cv.created_at⟩ : CellValue).column_id == c)
          = true := h
      simp only [hmatch, List.length_cons, Nat.succ_eq_add_one, Nat.add_left_cancel_iff]
      -- no further entry of `rest` matches the key, by Nodup
      have hrest : ∀ x ∈ rest, ¬ (x.row_id == r && x.column_id == c) = true := by
        intro x hx hxm
        apply hinv.1
        rw [cellKey_mk_eq h]
        rw [← cellKey_mk_eq hxm]
        exact List.mem_map_of_mem cellKey hx
      have : rest.filter (fun x => x.row_id == r && x.column_id == c) = [] := by
        rw [List.filter_eq_nil_iff]
        exact hrest
      simp [this]
    · rw [Bool.not_eq_true] at h
      simp only [upsertLocal, h, Bool.false_eq_true, if_neg, not_false_iff]
      rw [countKey, List.filter, h]
      exact ih hinv.2

/-- Under the invariant, after an upsert every entry at the key carries the
upserted value. -/
lemma value_at_key_upsertLocal (r c v : String) {cells : List CellValue}
    (hinv : cacheInv cells) :
    ∀ cv ∈ upsertLocal r c v cells, cellKey cv = (r, c) → cv.value = v := by
  induction cells with
  | nil =>
    intro cv hcv hk
    simp only [upsertLocal, List.mem_singleton] at hcv
    subst hcv
    rfl
  | cons cv rest ih =>
    rw [cacheInv, List.map_cons, List.nodup_cons] at hinv
    by_cases h : (cv.row_id == r && cv.column_id == c) = true
    · intro x hx hk
      simp only [upsertLocal, h, if_pos, List.mem_cons] at hx
      rcases hx with hx | hx
      · subst hx; rfl
      · exfalso
        apply hinv.1
        rw [cellKey_mk_eq h, ← hk]
        exact List.mem_map_of_mem cellKey hx
    · rw [Bool.not_eq_true] at h
      intro x hx hk
      simp only [upsertLocal, h, Bool.false_eq_true, if_neg, not_false_iff, List.mem_cons] at hx
      rcases hx with hx | hx
      · exfalso
        subst hx
        exact cellKey_mk_ne h hk
      · exact ih hinv.2 x hx hk

/-- Reading back a key immediately after upserting it yields the new value. -/
lemma lookupCell_upsertLocal (r c v : String) (cells : List CellValue) :
    lookupCell (upsertLocal r c v cells) r c = some v := by
  induction cells with
  | nil =>
    simp [lookupCell, upsertLocal, List.find?]
  | cons cv rest ih =>
    by_cases h : (cv.row_id == r && cv.column_id == c) = true
    · simp only [upsertLocal, h, if_pos, lookupCell, List.find?]
      have hmatch : ((⟨cv.id, cv.row_id, cv.column_id, v, cv.created_at⟩ : CellValue).row_id == r
          && (⟨cv.id, cv.row_id, cv.column_id, v, cv.created_at⟩ : CellValue).column_id == c)
          = true := h
      simp [hmatch]
    · rw [Bool.not_eq_true] at h
      simp only [upsertLocal, h, Bool.false_eq_true, if_neg, not_false_iff]
      rw [lookupCell, List.find?, h]
      exact ih

/-! ## Undo/Redo Ledger and cell edits (src/components/DataGrid.tsx)

The grid keeps two in-memory stacks of `UndoEntry` records.  The TypeScript
code pushes and pops at the end of a JS array; we model the LIFO stacks as
lists whose head is the stack top (push = cons, pop = head).  Persistence
through `upsertCellValue` may throw; each operation therefore takes a
`persistOk` flag selecting the success or the catch branch of the source. -/

/-- The `UndoEntry` from src/components/DataGrid.tsx. -/
structure UndoEntry where
  rowId : String
  columnId : String
  oldValue : String
  newValue : String
deriving DecidableEq, Repr

/-- The grid-relevant client state: the cell-value cache plus both stacks. -/
structure GridState where
  cells : List CellValue
  undoStack : List UndoEntry
  redoStack : List UndoEntry
deriving DecidableEq, Repr

/-- The `performUndo`: pop the undo stack (empty → report-only no-op); re-apply the
entry's old value through the upsert path; on success push the entry onto the
redo stack, on failure push it back onto the undo stack and leave the redo
stack untouched. -/
def performUndo (s : GridState) (persistOk : Bool) : GridState :=
  match s.undoStack with
  | [] => s
  | entry :: rest =>
    if persistOk then
      { cells := upsertLocal entry.rowId entry.columnId entry.oldValue s.cells
        undoStack := rest
        redoStack := entry :: s.redoStack }
    else
      { cells := s.cells
        undoStack := entry :: rest
        redoStack := s.redoStack }

/-- The `performRedo`: symmetric to `performUndo`, re-applying the entry's new
value and moving the entry back to the undo stack. -/
def performRedo (s : GridState) (persistOk : Bool) : GridState :=
  match s.redoStack with
  | [] => s
  | entry :: rest =>
    if persistOk then
      { cells := upsertLocal entry.rowId entry.columnId entry.newValue s.cells
        undoStack := entry :: s.undoStack
        redoStack := rest }
    else
      { cells := s.cells
        undoStack := s.undoStack
        redoStack := entry :: rest }

/-- The `String(x ?? '')` applied to a possibly-absent cell value. -/
def stringifyVal : Option String → String
  | none => ""
  | some v => v

/-- Observable outcome of a cell edit request: the resulting state, whether the
confirmation dialog was shown, and whether a persistence write was attempted. -/
structure EditOutcome where
  state : GridState
  confirmAsked : Bool
  persistAttempted : Bool
deriving DecidableEq, Repr

/-- The `handleCellEditRequest`: stringify old/new values; return immediately when
they are equal; otherwise ask for confirmation; on confirmed success write the
cell through the upsert path, push an undo entry and clear the redo stack; on
persistence failure only report. -/
def handleCellEditRequest (s : GridState) (rowId columnId : String)
    (oldValue newValue : Option String) (userConfirms persistOk : Bool) : EditOutcome :=
  let oldV := stringifyVal oldValue
  let newV := stringifyVal newValue
  if oldV == newV then
    ⟨s, false, false⟩
  else if !userConfirms then
    ⟨s, true, false⟩
  else if persistOk then
    ⟨{ cells := upsertLocal rowId columnId newV s.cells
       undoStack := ⟨rowId, columnId, oldV, newV⟩ :: s.undoStack
       redoStack := [] }, true, true⟩
  else
    ⟨s, true, true⟩

/-! ## Batch Executor (handleRun in src/components/CsvUploadModal.tsx
`RunAiColumnModal`, handleVerify in src/components/VerifyEmailsModal.tsx)

Both runners iterate `for (i = 0; i < items.length; i += batchSize)`, take the
slice `[i, i+batchSize)`, run each item with its failure caught and turned
into a local `error` result (counting it in `errors`), wait for the whole
group, add the group length to `done`, and report `min(done, total)` (the
executor also resets progress to 0 before the loop; the reports modelled here
are the after-group reports).  A per-item effect (the cell write performed by
the API route) happens exactly for the items whose call does not fail. -/

/-- Accumulated state of a counted batched run. -/
structure RunState (α : Type) where
  done : Nat
  errors : Nat
  written : List α
  reports : List Nat
deriving DecidableEq, Repr

/-- The batched loop shared by `handleVerify` and `RunAiColumnModal.handleRun`:
chunk of size `B`, per-item failure counted locally, after-group progress
report `min (done + group.length) total`.  `B = 0` (never used by the source,
which passes 5) is a no-op guard for totality. -/
def runLoop {α : Type} (B total : Nat) (fails : α → Bool) (st : RunState α) :
    List α → RunState α
  | [] => st
  | x :: xs =>
    if B = 0 then st
    else
      let batch := (x :: xs).take B
      let st' : RunState α :=
        { done := st.done + batch.length
          errors := st.errors + (batch.filter fails).length
          written := st.written ++ batch.filter (fun a => !(fails a))
          reports := st.reports ++ [min (st.done + batch.length) total] }
      runLoop B total fails st' ((x :: xs).drop B)
termination_by l => l.length
decreasing_by
  simp only [List.length_drop, List.length_cons]
  omega

/-- A whole counted run: the loop started from the zero state, with
`total = items.length`. -/
def countedRun {α : Type} (B : Nat) (fails : α → Bool) (items : List α) : RunState α :=
  runLoop B items.length fails ⟨0, 0, [], []⟩ items

/-- User-visible summary toast of the counted runners:
`(total - errors)` succeeded, `errors` failed. -/
def countedSummary {α : Type} (B : Nat) (fails : α → Bool) (items : List α) : Nat × Nat :=
  (items.length - (countedRun B fails items).errors, (countedRun B fails items).errors)

/-- Accumulated state of `AiColumnModal.runEnrichment`, which has no error
counter. -/
structure EnrichState (α : Type) where
  done : Nat
  written : List α
  reports : List Nat
deriving DecidableEq, Repr

/-- The batched loop of `AiColumnModal.runEnrichment`
(src/components/AiColumnModal.tsx): identical chunking and progress reports,
failures caught and turned into a local error result, but no error counter is
kept. -/
def enrichLoop {α : Type} (B total : Nat) (fails : α → Bool) (st : EnrichState α) :
    List α → EnrichState α
  | [] => st
  | x :: xs =>
    if B = 0 then st
    else
      let batch := (x :: xs).take B
      let st' : EnrichState α :=
        { done := st.done + batch.length
          written := st.written ++ batch.filter (fun a => !(fails a))
          reports := st.reports ++ [min (st.done + batch.length) total] }
      enrichLoop B total fails st' ((x :: xs).drop B)
termination_by l => l.length
decreasing_by
  simp only [List.length_drop, List.length_cons]
  omega

/-- A whole `runEnrichment` run started from the zero state. -/
def enrichRun {α : Type} (B : Nat) (fails : α → Bool) (items : List α) : EnrichState α :=
  enrichLoop B items.length fails ⟨0, [], []⟩ items

/-- The count shown by `runEnrichment`'s final toast:
`Enriched ${total} rows` regardless of failures (src/components/AiColumnModal.tsx
line 107). -/
def enrichSummaryCount {α : Type} (_B : Nat) (_fails : α → Bool) (items : List α) : Nat :=
  items.length

/-- The after-group progress values as a function of remaining-item count:
the report appended for a group of `min B n` remaining items is
`min (done + group.length) total`. -/
def auxReports (B total d0 n : Nat) : List Nat :=
  if B = 0 then []
  else if n = 0 then []
  else min (d0 + min B n) total :: auxReports B total (d0 + min B n) (n - B)
termination_by n
decreasing_by omega

/-- Closed form of the counted batch loop: it visits every item, counts every
failing item, writes exactly the non-failing items, and appends the
after-group reports described by `auxReports`. -/
lemma runLoop_spec {α : Type} (B total : Nat) (fails : α → Bool) (hB : 0 < B) :
    ∀ (n : Nat) (l : List α) (st : RunState α), l.length ≤ n →
      runLoop B total fails st l =
        { done := st.done + l.length
          errors := st.errors + (l.filter fails).length
          written := st.written ++ l.filter (fun a => !(fails a))
          reports := st.reports ++ auxReports B total st.done l.length } := by
  intro n
  induction n with
  | zero =>
    intro l st hl
    have hnil : l = [] := List.length_eq_zero.mp (Nat.le_zero.mp hl)
    subst hnil
    simp [runLoop, auxReports]
  | succ n ih =>
    intro l st hl
    cases l with
    | nil => simp [runLoop, auxReports]
    | cons x xs =>
      have hB0 : ¬ B = 0 := by omega
      rw [runLoop]
      simp only [hB0, if_false]
      simp only [List.length_cons] at hl
      have hdrop : ((x :: xs).drop B).length ≤ n := by
        simp only [List.length_drop, List.length_cons]
        omega
      rw [ih ((x :: xs).drop B) _ hdrop]
      have hfil : (x :: xs).filter fails
          = ((x :: xs).take B).filter fails ++ ((x :: xs).drop B).filter fails := by
        rw [← List.filter_append, List.take_append_drop]
      have hfil' : (x :: xs).filter (fun a => !(fails a))
          = ((x :: xs).take B).filter (fun a => !(fails a))
            ++ ((x :: xs).drop B).filter (fun a => !(fails a)) := by
        rw [← List.filter_append, List.take_append_drop]
      simp only [RunState.mk.injEq]
      refine ⟨?_, ?_, ?_, ?_⟩
      · simp only [List.length_take, List.length_drop, List.length_cons]
        omega
      · rw [hfil, List.length_append]
        omega
      · rw [hfil', List.append_assoc]
      · conv_rhs => rw [auxReports]
        have hlen0 : ¬ (x :: xs).length = 0 := by simp
        simp only [hB0, if_false, hlen0]
        rw [List.append_assoc, List.singleton_append]
        simp only [List.length_take, List.length_drop]

/-- Closed form of the `runEnrichment` loop (same shape, no error counter). -/
lemma enrichLoop_spec {α : Type} (B total : Nat) (fails : α → Bool) (hB : 0 < B) :
    ∀ (n : Nat) (l : List α) (st : EnrichState α), l.length ≤ n →
      enrichLoop B total fails st l =
        { done := st.done + l.length
          written := st.written ++ l.filter (fun a => !(fails a))
          reports := st.reports ++ auxReports B total st.done l.length } := by
  intro n
  induction n with
  | zero =>
    intro l st hl
    have hnil : l = [] := List.length_eq_zero.mp (Nat.le_zero.mp hl)
    subst hnil
    simp [enrichLoop, auxReports]
  | succ n ih =>
    intro l st hl
    cases l with
    | nil => simp [enrichLoop, auxReports]
    | cons x xs =>
      have hB0 : ¬ B = 0 := by omega
      rw [enrichLoop]
      simp only [hB0, if_false]
      simp only [List.length_cons] at hl
      have hdrop : ((x :: xs).drop B).length ≤ n := by
        simp only [List.length_drop, List.length_cons]
        omega
      rw [ih ((x :: xs).drop B) _ hdrop]
      have hfil' : (x :: xs).filter (fun a => !(fails a))
          = ((x :: xs).take B).filter (fun a => !(fails a))
            ++ ((x :: xs).drop B).filter (fun a => !(fails a)) := by
        rw [← List.filter_append, List.take_append_drop]
      simp only [EnrichState.mk.injEq]
      refine ⟨?_, ?_, ?_⟩
      · simp only [List.length_take, List.length_drop, List.length_cons]
        omega
      · rw [hfil', List.append_assoc]
      · conv_rhs => rw [auxReports]
        have hlen0 : ¬ (x :: xs).length = 0 := by simp
        simp only [hB0, if_false, hlen0]
        rw [List.append_assoc, List.singleton_append]
        simp only [List.length_take, List.length_drop]

/-- Every after-group report is capped at `total`. -/
lemma auxReports_le (B total : Nat) :
    ∀ (n d0 : Nat), ∀ r ∈ auxReports B total d0 n, r ≤ total := by
  intro n
  induction n using Nat.strong_induction_on with
  | _ n ih =>
    intro d0 r hr
    rw [auxReports] at hr
    by_cases hB : B = 0
    · simp [hB] at hr
    · by_cases hn : n = 0
      · simp [hB, hn] at hr
      · simp only [hB, hn, if_false, List.mem_cons] at hr
        rcases hr with hr | hr
        · omega
        · exact ih (n - B) (by omega) (d0 + min B n) r hr

/-- First report of a nonempty run. -/
lemma auxReports_head? (B total d0 n : Nat) (hB : ¬ B = 0) (hn : ¬ n = 0) :
    (auxReports B total d0 n).head? = some (min (d0 + min B n) total) := by
  rw [auxReports]
  simp [hB, hn]

/-- The after-group reports are nondecreasing. -/
lemma auxReports_chain (B total : Nat) :
    ∀ (n d0 : Nat), List.Chain' (· ≤ ·) (auxReports B total d0 n) := by
  intro n
  induction n using Nat.strong_induction_on with
  | _ n ih =>
    intro d0
    rw [auxReports]
    by_cases hB : B = 0
    · simp [hB]
    · by_cases hn : n = 0
      · simp [hB, hn]
      · simp only [hB, hn, if_false]
        rw [List.chain'_cons']
        refine ⟨?_, ih (n - B) (by omega) (d0 + min B n)⟩
        intro y hy
        by_cases hrem : n - B = 0
        · rw [auxReports] at hy
          simp [hB, hrem] at hy
        · rw [auxReports_head? B total _ _ hB hrem] at hy
          simp only [Option.mem_def, Option.some.injEq] at hy
          omega

/-- A nonempty run's final report is `min (d0 + n) total`; at the top level
(`d0 = 0`, `total = n`) this is exactly `total`. -/
lemma auxReports_getLast? (B total : Nat) :
    ∀ (n d0 : Nat), 0 < B → 0 < n →
      (auxReports B total d0 n).getLast? = some (min (d0 + n) total) := by
  intro n
  induction n using Nat.strong_induction_on with
  | _ n ih =>
    intro d0 hB hn
    rw [auxReports]
    have hB0 : ¬ B = 0 := by omega
    have hn0 : ¬ n = 0 := by omega
    simp only [hB0, hn0, if_false]
    by_cases hrem : n - B = 0
    · have : auxReports B total (d0 + min B n) (n - B) = [] := by
        rw [auxReports]
        simp [hrem]
      rw [this]
      simp only [List.getLast?_singleton, Option.some.injEq]
      omega
    · have htail := ih (n - B) (by omega) (d0 + min B n) hB (by omega)
      cases hcase : auxReports B total (d0 + min B n) (n - B) with
      | nil => rw [hcase] at htail; simp at htail
      | cons y ys =>
        rw [hcase] at htail
        rw [List.getLast?_cons_cons, htail]
        simp only [Option.some.injEq]
        omega

/-! ## Candidate-row selection (`getRowsToRun` in RunAiColumnModal,
`getRowsToVerify` in src/components/VerifyEmailsModal.tsx)

A `GridRow` is the flattened projection `{_rowId, [columnId]: value}`; an
absent key reads as JS `undefined`, modelled as `none`. -/

/-- Projected grid row: row id plus a columnId → value mapping. -/
structure GridRow where
  rowId : String
  cells : List (String × String)
deriving DecidableEq, Repr

/-- The `row[columnId]`: first binding for the column id, `none` when absent. -/
def rowVal (row : GridRow) (columnId : String) : Option String :=
  (row.cells.find? (fun p => p.1 == columnId)).map (·.2)

/-- The `val === undefined || val === null || val === ''` — the skip-existing test. -/
def isMissingVal : Option String → Bool
  | none => true
  | some v => v == ""

/-- The `email && email.trim() !== ''` — the email-presence test of
`getRowsToVerify` (JS truthiness: `undefined`, `null` and `''` are falsy). -/
def hasEmailVal : Option String → Bool
  | none => false
  | some v => !(v == "") && !(v.trim == "")

/-- The `RunAiColumnModal.getRowsToRun`: take the first `rowCount` rows, then if
skip-existing is on keep only rows whose target-column value is missing. -/
def getRowsToRun (gridRows : List GridRow) (columnId : String) (rowCount : Nat)
    (skipExisting : Bool) : List GridRow :=
  let subset := gridRows.take rowCount
  if skipExisting then
    subset.filter (fun row => isMissingVal (rowVal row columnId))
  else
    subset

/-- The `getRowsToVerify`: pool = explicit selection or first `rowCount` rows;
always keep only rows with a non-blank email; when skip-verified is on and the
status column exists, additionally keep only rows without a status value. -/
def getRowsToVerify (gridRows : List GridRow) (emailColId : String)
    (statusColId : Option String) (selectedMode : Bool) (selectedRowIds : List String)
    (rowCount : Nat) (skipVerified : Bool) : List GridRow :=
  let pool :=
    if selectedMode then
      gridRows.filter (fun row => selectedRowIds.contains row.rowId)
    else
      gridRows.take rowCount
  let pool := pool.filter (fun row => hasEmailVal (rowVal row emailColId))
  match statusColId with
  | some sc =>
    if skipVerified then
      pool.filter (fun row => isMissingVal (rowVal row sc))
    else
      pool
  | none => pool

/-! ## Fuzzy Column Mapper (`findBestMatch` in src/components/CsvUploadModal.tsx,
auto-mapping loop in `handleListConfirm`, src/unnamed/part_001) -/

/-- Mapping decision: an existing column id, `__create__`, or `__skip__`. -/
inductive MappingValue where
  | target (id : String)
  | create
  | skip
deriving DecidableEq, Repr

/-- A character kept by the normalizer: `[a-z0-9]`. -/
def isLowerAlnum (c : Char) : Bool :=
  (('a' ≤ c) && (c ≤ 'z')) || (('0' ≤ c) && (c ≤ '9'))

/-- The `s.toLowerCase().replace(/[^a-z0-9]/g, '')`: lowercase every character,
then delete the ones outside `[a-z0-9]`. -/
def normStr (s : String) : String :=
  String.mk ((s.toList.map Char.toLower).filter isLowerAlnum)

/-- The `big.includes(small)` on the underlying character lists. -/
def containsSub (small : List Char) : List Char → Bool
  | [] => List.isPrefixOf small []
  | c :: rest => List.isPrefixOf small (c :: rest) || containsSub small rest

/-- The per-column match test (the source binds `colNorm = normStr col.name`,
inlined here): normalized equality, or substring containment in either
direction. -/
def colMatches (normalized : String) (col : ColumnDefinition) : Bool :=
  normStr col.name == normalized
    || containsSub normalized.toList (normStr col.name).toList
    || containsSub (normStr col.name).toList normalized.toList

/-- The `findBestMatch`: normalize the CSV header, return the first column whose
normalized name equals it or contains/is contained in it; else `__create__`. -/
def findBestMatch (columns : List ColumnDefinition) (csvHeader : String) : MappingValue :=
  let normalized := normStr csvHeader
  go normalized columns
where
  go (normalized : String) : List ColumnDefinition → MappingValue
    | [] => MappingValue.create
    | col :: rest =>
      if normStr col.name == normalized then MappingValue.target col.id
      else if containsSub normalized.toList (normStr col.name).toList
          || containsSub (normStr col.name).toList normalized.toList then
        MappingValue.target col.id
      else go normalized rest

/-- The auto-mapping loop of `handleListConfirm` (src/unnamed/part_001): same
normalization, one combined condition, first match wins via `break`, default
`__create__`. -/
def apolloAutoTarget (columns : List ColumnDefinition) (label : String) : MappingValue :=
  let normalized := normStr label
  go normalized columns
where
  go (normalized : String) : List ColumnDefinition → MappingValue
    | [] => MappingValue.create
    | col :: rest =>
      if normStr col.name == normalized
          || containsSub normalized.toList (normStr col.name).toList
          || containsSub (normStr col.name).toList normalized.toList then
        MappingValue.target col.id
      else go normalized rest

/-! ## Persistence proxy route (src/app/api/supabase/route.ts)

`delete_column` deletes all `cell_values` for the column and then the column
definition; `delete_rows` deletes all `cell_values` for the rows (in id
chunks of 50) and then the row records (same chunks). -/

/-- Authoritative store contents touched by the route. -/
structure Store where
  columns : List ColumnDefinition
  rows : List RowRec
  cells : List CellValue
deriving DecidableEq, Repr

/-- First statement of `delete_column`: remove every cell value referencing
the column. -/
def deleteColumnCells (st : Store) (columnId : String) : Store :=
  { st with cells := st.cells.filter (fun cv => !(cv.column_id == columnId)) }

/-- Second statement of `delete_column`: remove the column definition itself. -/
def deleteColumnDef (st : Store) (columnId : String) : Store :=
  { st with columns := st.columns.filter (fun c => !(c.id == columnId)) }

/-- The `delete_column` action: cells first, then the column definition. -/
def deleteColumnOp (st : Store) (columnId : String) : Store :=
  deleteColumnDef (deleteColumnCells st columnId) columnId

/-- First loop of `delete_rows`: for each chunk of up to `B` row ids, delete
the cell values whose `row_id` is in the chunk. -/
def deleteRowsCellsLoop (B : Nat) (cells : List CellValue) : List String → List CellValue
  | [] => cells
  | x :: xs =>
    if B = 0 then cells
    else
      deleteRowsCellsLoop B
        (cells.filter (fun cv => !(((x :: xs).take B).contains cv.row_id)))
        ((x :: xs).drop B)
termination_by l => l.length
decreasing_by
  simp only [List.length_drop, List.length_cons]
  omega

/-- Second loop of `delete_rows`: same chunks, deleting the row records. -/
def deleteRowsRecsLoop (B : Nat) (rows : List RowRec) : List String → List RowRec
  | [] => rows
  | x :: xs =>
    if B = 0 then rows
    else
      deleteRowsRecsLoop B
        (rows.filter (fun r => !(((x :: xs).take B).contains r.id)))
        ((x :: xs).drop B)
termination_by l => l.length
decreasing_by
  simp only [List.length_drop, List.length_cons]
  omega

/-- The `delete_rows` action: all cell-value deletions (first loop, batch 50),
then all row deletions (second loop, batch 50). -/
def deleteRowsOp (st : Store) (rowIds : List String) : Store :=
  let st1 := { st with cells := deleteRowsCellsLoop 50 st.cells rowIds }
  { st1 with rows := deleteRowsRecsLoop 50 st1.rows rowIds }

/-! ## Column deletion reachability (ColumnSettingsModal, src/unnamed/part_001)

The modal renders the delete controls only when the column is not protected
for the active table type, and `handleDelete` additionally requires the typed
confirmation text to equal the column name.  `attemptDeleteColumn` models a
user delete attempt through that modal: the `delete_column` call fires only
when both gates pass. -/

/-- A user-reachable column-delete attempt through ColumnSettingsModal. -/
def attemptDeleteColumn (st : Store) (tableType : TableType) (col : ColumnDefinition)
    (confirmText : String) : Store :=
  if isProtectedColumn col.field_key tableType then
    st
  else if confirmText == col.name then
    deleteColumnOp st col.id
  else
    st

lemma contains_take_drop {α : Type} [BEq α] [LawfulBEq α] (B : Nat) (l : List α) (y : α) :
    l.contains y = ((l.take B).contains y || (l.drop B).contains y) := by
  simp only [List.contains, List.elem_eq_mem]
  rw [← Bool.decide_or, decide_eq_decide]
  conv_lhs => rw [← List.take_append_drop B l]
  exact List.mem_append

/-- Closed form of the first `delete_rows` loop: chunked deletion removes
exactly the cell values whose row id occurs anywhere in `rowIds`. -/
lemma deleteRowsCellsLoop_spec (B : Nat) (hB : 0 < B) :
    ∀ (n : Nat) (rowIds : List String) (cells : List CellValue), rowIds.length ≤ n →
      deleteRowsCellsLoop B cells rowIds
        = cells.filter (fun cv => !(rowIds.contains cv.row_id)) := by
  intro n
  induction n with
  | zero =>
    intro rowIds cells hl
    have hnil : rowIds = [] := List.length_eq_zero.mp (Nat.le_zero.mp hl)
    subst hnil
    simp [deleteRowsCellsLoop]
  | succ n ih =>
    intro rowIds cells hl
    cases rowIds with
    | nil => simp [deleteRowsCellsLoop]
    | cons x xs =>
      have hB0 : ¬ B = 0 := by omega
      rw [deleteRowsCellsLoop]
      simp only [hB0, if_false]
      simp only [List.length_cons] at hl
      have hdrop : ((x :: xs).drop B).length ≤ n := by
        simp only [List.length_drop, List.length_cons]
        omega
      rw [ih ((x :: xs).drop B) _ hdrop, List.filter_filter]
      apply List.filter_congr
      intro cv _
      rw [contains_take_drop B (x :: xs) cv.row_id]
      cases ((x :: xs).take B).contains cv.row_id <;>
        cases ((x :: xs).drop B).contains cv.row_id <;> rfl

/-- Closed form of the second `delete_rows` loop. -/
lemma deleteRowsRecsLoop_spec (B : Nat) (hB : 0 < B) :
    ∀ (n : Nat) (rowIds : List String) (rows : List RowRec), rowIds.length ≤ n →
      deleteRowsRecsLoop B rows rowIds
        = rows.filter (fun r => !(rowIds.contains r.id)) := by
  intro n
  induction n with
  | zero =>
    intro rowIds rows hl
    have hnil : rowIds = [] := List.length_eq_zero.mp (Nat.le_zero.mp hl)
    subst hnil
    simp [deleteRowsRecsLoop]
  | succ n ih =>
    intro rowIds rows hl
    cases rowIds with
    | nil => simp [deleteRowsRecsLoop]
    | cons x xs =>
      have hB0 : ¬ B = 0 := by omega
      rw [deleteRowsRecsLoop]
      simp only [hB0, if_false]
      simp only [List.length_cons] at hl
      have hdrop : ((x :: xs).drop B).length ≤ n := by
        simp only [List.length_drop, List.length_cons]
        omega
      rw [ih ((x :: xs).drop B) _ hdrop, List.filter_filter]
      apply List.filter_congr
      intro r _
      rw [contains_take_drop B (x :: xs) r.id]
      cases ((x :: xs).take B).contains r.id <;>
        cases ((x :: xs).drop B).contains r.id <;> rfl

/-- Invariant preservation along any sequence of upserts. -/
lemma cacheInv_foldl_upsert (ops : List (String × String × String)) :
    ∀ cells, cacheInv cells →
      cacheInv (ops.foldl (fun acc t => upsertLocal t.1 t.2.1 t.2.2 acc) cells) := by
  induction ops with
  | nil =>
    intro cells h
    exact h
  | cons t rest ih =>
    intro cells h
    exact ih _ (cacheInv_upsertLocal _ _ _ h)

/-- C3: starting from a cache with at most one entry per `(row, column)` key,
upserting the same value twice leaves exactly one entry at that key, holding
that value; a single upsert never introduces a second entry for a key, and any
sequence of upserts preserves the at-most-one-entry-per-key invariant. -/
theorem upsert_cache_idempotent_unique (r c v : String) (cells : List CellValue)
    (hinv : cacheInv cells) :
    cacheInv (upsertLocal r c v cells)
      ∧ countKey (upsertLocal r c v (upsertLocal r c v cells)) r c = 1
      ∧ (∀ cv ∈ upsertLocal r c v (upsertLocal r c v cells),
            cellKey cv = (r, c) → cv.value = v)
      ∧ ∀ ops : List (String × String × String),
          cacheInv (ops.foldl (fun acc t => upsertLocal t.1 t.2.1 t.2.2 acc) cells) := by
  have h1 := cacheInv_upsertLocal r c v hinv
  exact ⟨h1, countKey_upsertLocal r c v h1, value_at_key_upsertLocal r c v h1,
    fun ops => cacheInv_foldl_upsert ops cells hinv⟩

/-- Witness for C3 at a concrete cache. -/
theorem upsert_cache_idempotent_unique_witness :
    cacheInv [⟨"id0", "r2", "c2", "y", ""⟩]
      ∧ countKey (upsertLocal "r1" "c1" "x"
          (upsertLocal "r1" "c1" "x" [⟨"id0", "r2", "c2", "y", ""⟩])) "r1" "c1" = 1 := by
  have hinv : cacheInv [⟨"id0", "r2", "c2", "y", ""⟩] := by
    simp [cacheInv]
  exact ⟨hinv,
    (upsert_cache_idempotent_unique "r1" "c1" "x" [⟨"id0", "r2", "c2", "y", ""⟩] hinv).2.1⟩

/-- C7: `delete_column` removes every cell value referencing the column before
removing the column definition, and `delete_rows` removes every cell value for
the listed rows (in chunks of 50) before removing the row records; after a
successful delete no cell value referencing the deleted column id or row ids
remains. -/
theorem delete_cascade_cells_then_parent (st : Store) (columnId : String)
    (rowIds : List String) :
    deleteColumnOp st columnId = deleteColumnDef (deleteColumnCells st columnId) columnId
      ∧ (deleteColumnCells st columnId).columns = st.columns
      ∧ (∀ cv ∈ (deleteColumnOp st columnId).cells, cv.column_id ≠ columnId)
      ∧ (∀ col ∈ (deleteColumnOp st columnId).columns, col.id ≠ columnId)
      ∧ (deleteRowsOp st rowIds).cells
          = st.cells.filter (fun cv => !(rowIds.contains cv.row_id))
      ∧ (deleteRowsOp st rowIds).rows
          = st.rows.filter (fun r => !(rowIds.contains r.id))
      ∧ (∀ cv ∈ (deleteRowsOp st rowIds).cells, ¬ rowIds.contains cv.row_id = true)
      ∧ (∀ r ∈ (deleteRowsOp st rowIds).rows, ¬ rowIds.contains r.id = true) := by
  have hcells : (deleteRowsOp st rowIds).cells
      = st.cells.filter (fun cv => !(rowIds.contains cv.row_id)) := by
    rw [deleteRowsOp]
    exact deleteRowsCellsLoop_spec 50 (by omega) rowIds.length rowIds st.cells (le_refl _)
  have hrows : (deleteRowsOp st rowIds).rows
      = st.rows.filter (fun r => !(rowIds.contains r.id)) := by
    rw [deleteRowsOp]
    exact deleteRowsRecsLoop_spec 50 (by omega) rowIds.length rowIds st.rows (le_refl _)
  refine ⟨rfl, rfl, ?_, ?_, hcells, hrows, ?_, ?_⟩
  · intro cv hcv
    have := List.of_mem_filter hcv
    simp only [Bool.not_eq_true', beq_eq_false_iff_ne, ne_eq] at this
    exact this
  · intro col hcol
    have := List.of_mem_filter hcol
    simp only [Bool.not_eq_true', beq_eq_false_iff_ne, ne_eq] at this
    exact this
  · intro cv hcv
    rw [hcells] at hcv
    have := List.of_mem_filter hcv
    simpa using this
  · intro r hr
    rw [hrows] at hr
    have := List.of_mem_filter hr
    simpa using this

/-- Witness for C7: one column, two rows, three cells; deleting column `c1`
and rows `[r1]` cleans exactly the referencing cells first. -/
theorem delete_cascade_cells_then_parent_witness :
    (deleteColumnOp
        ⟨[⟨"c1", "Email", "email", false⟩], [⟨"r1", "w"⟩],
         [⟨"", "r1", "c1", "a", ""⟩, ⟨"", "r1", "c2", "b", ""⟩]⟩ "c1").cells
      = [⟨"", "r1", "c2", "b", ""⟩]
      ∧ (∀ cv ∈ (deleteColumnOp
            ⟨[⟨"c1", "Email", "email", false⟩], [⟨"r1", "w"⟩],
             [⟨"", "r1", "c1", "a", ""⟩, ⟨"", "r1", "c2", "b", ""⟩]⟩ "c1").cells,
          cv.column_id ≠ "c1") := by
  refine ⟨by simp [deleteColumnOp, deleteColumnCells, deleteColumnDef], ?_⟩
  exact (delete_cascade_cells_then_parent
    ⟨[⟨"c1", "Email", "email", false⟩], [⟨"r1", "w"⟩],
     [⟨"", "r1", "c1", "a", ""⟩, ⟨"", "r1", "c2", "b", ""⟩]⟩ "c1" []).2.2.1

/-- C8: undo (resp. redo) with an empty origin stack is a report-only no-op
leaving the whole state unchanged, and when re-applying the popped entry
fails, the entry is pushed back unchanged onto its origin stack, the other
stack and the cells are untouched — the state equals the original exactly. -/
theorem undo_redo_failure_preserves_history (s : GridState) (ok : Bool) :
    (s.undoStack = [] → performUndo s ok = s)
      ∧ (s.redoStack = [] → performRedo s ok = s)
      ∧ performUndo s false = s
      ∧ performRedo s false = s := by
  refine ⟨?_, ?_, ?_, ?_⟩
  · intro h
    rw [performUndo, h]
  · intro h
    rw [performRedo, h]
  · cases hs : s.undoStack with
    | nil => rw [performUndo, hs]
    | cons e rest =>
      rw [performUndo, hs]
      simp only [Bool.false_eq_true, if_neg, not_false_iff]
      rw [← hs]
  · cases hs : s.redoStack with
    | nil => rw [performRedo, hs]
    | cons e rest =>
      rw [performRedo, hs]
      simp only [Bool.false_eq_true, if_neg, not_false_iff]
      rw [← hs]

/-- Witness for C8 at a concrete state with a pending entry. -/
theorem undo_redo_failure_preserves_history_witness :
    performUndo ⟨[], [⟨"r", "c", "a", "b"⟩], []⟩ false = ⟨[], [⟨"r", "c", "a", "b"⟩], []⟩
      ∧ performRedo ⟨[], [], []⟩ true = ⟨[], [], []⟩ :=
  ⟨(undo_redo_failure_preserves_history ⟨[], [⟨"r", "c", "a", "b"⟩], []⟩ false).2.2.1,
   (undo_redo_failure_preserves_history ⟨[], [], []⟩ true).2.1 rfl⟩

/-- C9: a column whose field key belongs to the active table type's reserved
default set (`isProtectedColumn`) survives any user-reachable delete attempt:
the modal shows no delete control for it, so the attempt leaves the store —
columns and cell values — unchanged. -/
theorem protected_column_undeletable (st : Store) (tableType : TableType)
    (col : ColumnDefinition) (confirmText : String)
    (hprot : isProtectedColumn col.field_key tableType = true) :
    attemptDeleteColumn st tableType col confirmText = st
      ∧ (col ∈ st.columns → col ∈ (attemptDeleteColumn st tableType col confirmText).columns)
      ∧ (attemptDeleteColumn st tableType col confirmText).cells = st.cells := by
  have h : attemptDeleteColumn st tableType col confirmText = st := by
    rw [attemptDeleteColumn, if_pos hprot]
  exact ⟨h, fun hm => by rw [h]; exact hm, by rw [h]⟩

/-- Witness for C9: the protected `Email` column of a people table survives a
delete attempt even with the correct confirmation text typed. -/
theorem protected_column_undeletable_witness :
    isProtectedColumn "email" TableType.people = true
      ∧ attemptDeleteColumn
          ⟨[⟨"c1", "Email", "email", false⟩], [], [⟨"", "r1", "c1", "a", ""⟩]⟩
          TableType.people ⟨"c1", "Email", "email", false⟩ "Email"
        = ⟨[⟨"c1", "Email", "email", false⟩], [], [⟨"", "r1", "c1", "a", ""⟩]⟩ := by
  refine ⟨by decide, ?_⟩
  exact (protected_column_undeletable
    ⟨[⟨"c1", "Email", "email", false⟩], [], [⟨"", "r1", "c1", "a", ""⟩]⟩
    TableType.people ⟨"c1", "Email", "email", false⟩ "Email" (by decide)).1

/-- C10: when the stringified new value equals the stringified old value, the
edit handler returns immediately: no confirmation dialog, no persistence
attempt, no cache write, no undo push, no redo clear — the state is returned
unchanged. -/
theorem noop_edit_no_effects (s : GridState) (rowId columnId : String)
    (oldValue newValue : Option String) (userConfirms persistOk : Bool)
    (h : stringifyVal oldValue = stringifyVal newValue) :
    handleCellEditRequest s rowId columnId oldValue newValue userConfirms persistOk
      = ⟨s, false, false⟩ := by
  rw [handleCellEditRequest]
  simp [h]

/-- Witness for C10: editing `"x"` to `"x"` touches nothing. -/
theorem noop_edit_no_effects_witness :
    handleCellEditRequest ⟨[⟨"", "r", "c", "x", ""⟩], [], [⟨"q", "d", "u", "w"⟩]⟩
        "r" "c" (some "x") (some "x") true true
      = ⟨⟨[⟨"", "r", "c", "x", ""⟩], [], [⟨"q", "d", "u", "w"⟩]⟩, false, false⟩ :=
  noop_edit_no_effects ⟨[⟨"", "r", "c", "x", ""⟩], [], [⟨"q", "d", "u", "w"⟩]⟩
    "r" "c" (some "x") (some "x") true true rfl

/-- C4: a confirmed edit changing `(row, col)` from `a` to `b` stores `b` and
clears the redo stack, pushing the entry `(row, col, a, b)`; undo re-applies
`a` through the upsert path and moves that same entry to the top of the redo
stack; redo re-applies `b` and moves the same entry back on top of the undo
stack — entries are moved between the stacks, never mutated. -/
theorem undo_redo_inverse_law (s : GridState) (r c a b : String) (hne : a ≠ b)
    (s1 s2 s3 : GridState)
    (h1 : s1 = (handleCellEditRequest s r c (some a) (some b) true true).state)
    (h2 : s2 = performUndo s1 true)
    (h3 : s3 = performRedo s2 true) :
    lookupCell s1.cells r c = some b
      ∧ s1.redoStack = []
      ∧ s1.undoStack = (⟨r, c, a, b⟩ : UndoEntry) :: s.undoStack
      ∧ lookupCell s2.cells r c = some a
      ∧ s2.redoStack = [⟨r, c, a, b⟩]
      ∧ s2.undoStack = s.undoStack
      ∧ lookupCell s3.cells r c = some b
      ∧ s3.undoStack = (⟨r, c, a, b⟩ : UndoEntry) :: s.undoStack
      ∧ s3.redoStack = [] := by
  have hab : ((a : String) == b) = false := by
    rw [beq_eq_false_iff_ne]
    exact hne
  have hs1 : s1 = { cells := upsertLocal r c b s.cells
                    undoStack := ⟨r, c, a, b⟩ :: s.undoStack
                    redoStack := [] } := by
    rw [h1, handleCellEditRequest]
    simp [stringifyVal, hab]
  have hs2 : s2 = { cells := upsertLocal r c a s1.cells
                    undoStack := s.undoStack
                    redoStack := [⟨r, c, a, b⟩] } := by
    rw [h2, performUndo]
    rw [hs1]
    simp [hs1]
  have hs3 : s3 = { cells := upsertLocal r c b s2.cells
                    undoStack := ⟨r, c, a, b⟩ :: s.undoStack
                    redoStack := [] } := by
    rw [h3, performRedo]
    rw [hs2]
    simp [hs2]
  refine ⟨?_, ?_, ?_, ?_, ?_, ?_, ?_, ?_, ?_⟩
  · rw [hs1]
    exact lookupCell_upsertLocal r c b s.cells
  · rw [hs1]
  · rw [hs1]
  · rw [hs2]
    exact lookupCell_upsertLocal r c a s1.cells
  · rw [hs2]
  · rw [hs2]
  · rw [hs3]
    exact lookupCell_upsertLocal r c b s2.cells
  · rw [hs3]
  · rw [hs3]

/-- Witness for C4 at a concrete edit of an initially empty grid. -/
theorem undo_redo_inverse_law_witness :
    lookupCell (performUndo
        (handleCellEditRequest ⟨[], [], []⟩ "r" "c" (some "a") (some "b") true true).state
        true).cells "r" "c" = some "a" := by
  have h := undo_redo_inverse_law ⟨[], [], []⟩ "r" "c" "a" "b" (by decide)
    (handleCellEditRequest ⟨[], [], []⟩ "r" "c" (some "a") (some "b") true true).state
    (performUndo
      (handleCellEditRequest ⟨[], [], []⟩ "r" "c" (some "a") (some "b") true true).state true)
    (performRedo (performUndo
      (handleCellEditRequest ⟨[], [], []⟩ "r" "c" (some "a") (some "b") true true).state true)
      true)
    rfl rfl rfl
  exact h.2.2.2.1

/-- C1: over `N` work items with batch size `B`, the after-group progress
reports equal `auxReports` — each report is `min (done + group.length) N` for
the just-completed group — so the sequence is nondecreasing, never exceeds
`N` (even on the ragged final group), and for a nonempty run ends at exactly
`N`. -/
theorem batch_progress_monotone_capped {α : Type} (B : Nat) (items : List α)
    (fails : α → Bool) (hB : 0 < B) :
    (countedRun B fails items).reports = auxReports B items.length 0 items.length
      ∧ List.Chain' (· ≤ ·) (countedRun B fails items).reports
      ∧ (∀ rep ∈ (countedRun B fails items).reports, rep ≤ items.length)
      ∧ (items ≠ [] →
          ((countedRun B fails items).reports).getLast? = some items.length) := by
  have hrun := runLoop_spec B items.length fails hB items.length items ⟨0, 0, [], []⟩
    (le_refl _)
  have hrep : (countedRun B fails items).reports
      = auxReports B items.length 0 items.length := by
    rw [countedRun, hrun]
    simp
  refine ⟨hrep, ?_, ?_, ?_⟩
  · rw [hrep]
    exact auxReports_chain B items.length items.length 0
  · rw [hrep]
    exact auxReports_le B items.length items.length 0
  · intro hne
    rw [hrep]
    have hlen : 0 < items.length := List.length_pos.mpr hne
    rw [auxReports_getLast? B items.length items.length 0 hB hlen]
    simp

/-- Witness for C1: 12 items with batch size 5 report the sequence 5, 10, 12. -/
theorem batch_progress_monotone_capped_witness :
    (countedRun 5 (fun _ : Nat => false) (List.range 12)).reports = [5, 10, 12] := by
  have h := batch_progress_monotone_capped 5 (List.range 12) (fun _ => false) (by omega)
  rw [h.1]
  simp only [List.length_range]
  rw [auxReports, auxReports, auxReports, auxReports]
  norm_num

/-- C2 counterexample: `AiColumnModal.runEnrichment` keeps no error counter;
with 2 items of which 1 fails, only 1 item takes effect, yet its final toast
reports 2 enriched — not `N - |F| = 1` as the claim states for every batched
enrichment run. -/
theorem enrichment_summary_counterexample :
    ((enrichRun 5 (fun x : Nat => x == 0) [0, 1]).written).length = 1
      ∧ (([0, 1].filter (fun x : Nat => x == 0)).length = 1)
      ∧ enrichSummaryCount 5 (fun x : Nat => x == 0) [0, 1] = 2
      ∧ enrichSummaryCount 5 (fun x : Nat => x == 0) [0, 1]
          ≠ [0, 1].length - ([0, 1].filter (fun x : Nat => x == 0)).length := by
  have h := enrichLoop_spec 5 2 (fun x : Nat => x == 0) (by omega) 2 [0, 1] ⟨0, [], []⟩
    (by simp)
  have hw : (enrichRun 5 (fun x : Nat => x == 0) [0, 1]).written
      = [0, 1].filter (fun x : Nat => !(x == 0)) := by
    rw [enrichRun]
    show (enrichLoop 5 2 (fun x : Nat => x == 0) ⟨0, [], []⟩ [0, 1]).written = _
    rw [h]
    simp
  refine ⟨?_, by decide, by decide, by decide⟩
  rw [hw]
  decide

/-- C2 amended: in the counted runners (`handleVerify` and
`RunAiColumnModal.handleRun`) every item failure is caught at the batch
boundary and counted, exactly the non-failing items take effect, all items
are still attempted, and the summary reports `succeeded = N - |F|`,
`failed = |F|`; `AiColumnModal.runEnrichment` isolates failures the same way
(all items attempted, exactly the non-failing items take effect) but keeps no
counter and always reports all `N` items as enriched. -/
theorem batch_failure_isolation_amended {α : Type} (B : Nat) (items : List α)
    (fails : α → Bool) (hB : 0 < B) :
    (countedRun B fails items).errors = (items.filter fails).length
      ∧ (countedRun B fails items).written = items.filter (fun a => !(fails a))
      ∧ (countedRun B fails items).done = items.length
      ∧ countedSummary B fails items
          = (items.length - (items.filter fails).length, (items.filter fails).length)
      ∧ (enrichRun B fails items).written = items.filter (fun a => !(fails a))
      ∧ (enrichRun B fails items).done = items.length
      ∧ enrichSummaryCount B fails items = items.length := by
  have h1 := runLoop_spec B items.length fails hB items.length items ⟨0, 0, [], []⟩
    (le_refl _)
  have h2 := enrichLoop_spec B items.length fails hB items.length items ⟨0, [], []⟩
    (le_refl _)
  have herr : (countedRun B fails items).errors = (items.filter fails).length := by
    rw [countedRun, h1]
    simp
  refine ⟨herr, ?_, ?_, ?_, ?_, ?_, rfl⟩
  · rw [countedRun, h1]
    simp
  · rw [countedRun, h1]
    simp
  · rw [countedSummary, herr]
  · rw [enrichRun, h2]
    simp
  · rw [enrichRun, h2]
    simp

/-- Witness for C2 (amended) at a concrete failing run: 2 items, 1 failure →
summary (1 succeeded, 1 failed). -/
theorem batch_failure_isolation_amended_witness :
    (countedRun 5 (fun x : Nat => x == 0) [0, 1]).errors = 1
      ∧ countedSummary 5 (fun x : Nat => x == 0) [0, 1] = (1, 1) := by
  have h := batch_failure_isolation_amended 5 [0, 1] (fun x : Nat => x == 0) (by omega)
  constructor
  · rw [h.1]
    decide
  · rw [h.2.2.2.1]
    decide

/-- The `findBestMatch` loop returns the first column satisfying `colMatches`,
else `__create__`. -/
lemma findBestMatch_go_eq (normalized : String) :
    ∀ cols : List ColumnDefinition,
      findBestMatch.go normalized cols
        = (match cols.find? (colMatches normalized) with
           | some col => MappingValue.target col.id
           | none => MappingValue.create) := by
  intro cols
  induction cols with
  | nil => rfl
  | cons col rest ih =>
    rw [findBestMatch.go]
    cases h1 : (normStr col.name == normalized) with
    | true =>
      have hp : colMatches normalized col = true := by
        rw [colMatches, h1]
        rfl
      rw [List.find?_cons_of_pos _ hp]
      simp
    | false =>
      cases h2 : containsSub normalized.toList (normStr col.name).toList with
      | true =>
        have hp : colMatches normalized col = true := by
          rw [colMatches, h1, h2]
          rfl
        rw [List.find?_cons_of_pos _ hp]
        simp
      | false =>
        cases h3 : containsSub (normStr col.name).toList normalized.toList with
        | true =>
          have hp : colMatches normalized col = true := by
            rw [colMatches, h1, h2, h3]
            rfl
          rw [List.find?_cons_of_pos _ hp]
          simp
        | false =>
          have hp : colMatches normalized col = false := by
            rw [colMatches, h1, h2, h3]
            rfl
          rw [List.find?_cons_of_neg _ (by simp [hp])]
          simpa using ih

/-- The Apollo auto-mapping loop returns the same first match. -/
lemma apolloAutoTarget_go_eq (normalized : String) :
    ∀ cols : List ColumnDefinition,
      apolloAutoTarget.go normalized cols
        = (match cols.find? (colMatches normalized) with
           | some col => MappingValue.target col.id
           | none => MappingValue.create) := by
  intro cols
  induction cols with
  | nil => rfl
  | cons col rest ih =>
    rw [apolloAutoTarget.go]
    cases h : (normStr col.name == normalized
        || containsSub normalized.toList (normStr col.name).toList
        || containsSub (normStr col.name).toList normalized.toList) with
    | true =>
      have hp : colMatches normalized col = true := by
        rw [colMatches]
        exact h
      rw [List.find?_cons_of_pos _ hp]
      simp
    | false =>
      have hp : colMatches normalized col = false := by
        rw [colMatches]
        exact h
      rw [List.find?_cons_of_neg _ (by simp [hp])]
      simpa using ih

/-- C5: the fuzzy column mapper normalizes by lowercasing and deleting every
character outside `[a-z0-9]`, selects the first column (in iteration order)
whose normalized name equals, contains, or is contained in the normalized
label, and defaults to "create new" when no column matches; the CSV and
Apollo import loops implement the same decision; header "E-Mail Address"
against columns ["Email", "Phone"] maps to "Email". -/
theorem fuzzy_mapper_first_match (columns : List ColumnDefinition) (header : String) :
    findBestMatch columns header
      = (match columns.find? (colMatches (normStr header)) with
         | some col => MappingValue.target col.id
         | none => MappingValue.create)
      ∧ apolloAutoTarget columns header = findBestMatch columns header
      ∧ (normStr header).toList = (header.toList.map Char.toLower).filter isLowerAlnum
      ∧ findBestMatch
          [⟨"colEmail", "Email", "email", false⟩, ⟨"colPhone", "Phone", "phone", false⟩]
          "E-Mail Address" = MappingValue.target "colEmail" := by
  refine ⟨?_, ?_, rfl, by decide⟩
  · rw [findBestMatch]
    exact findBestMatch_go_eq (normStr header) columns
  · rw [findBestMatch, apolloAutoTarget, apolloAutoTarget_go_eq, findBestMatch_go_eq]

/-- The `getRowsToVerify` unfolded when no status column exists. -/
lemma getRowsToVerify_none (gridRows : List GridRow) (emailColId : String)
    (selectedMode : Bool) (selectedRowIds : List String) (rowCount : Nat)
    (skipVerified : Bool) :
    getRowsToVerify gridRows emailColId none selectedMode selectedRowIds rowCount
        skipVerified
      = (if selectedMode then
            gridRows.filter (fun row => selectedRowIds.contains row.rowId)
          else
            gridRows.take rowCount).filter
          (fun row => hasEmailVal (rowVal row emailColId)) := rfl

/-- The `getRowsToVerify` unfolded with a status column and skip-verified on. -/
lemma getRowsToVerify_some_skip (gridRows : List GridRow) (emailColId sc : String)
    (selectedMode : Bool) (selectedRowIds : List String) (rowCount : Nat) :
    getRowsToVerify gridRows emailColId (some sc) selectedMode selectedRowIds rowCount true
      = ((if selectedMode then
            gridRows.filter (fun row => selectedRowIds.contains row.rowId)
          else
            gridRows.take rowCount).filter
          (fun row => hasEmailVal (rowVal row emailColId))).filter
          (fun row => isMissingVal (rowVal row sc)) := rfl

/-- The `getRowsToVerify` unfolded with a status column and skip-verified off. -/
lemma getRowsToVerify_some_noskip (gridRows : List GridRow) (emailColId sc : String)
    (selectedMode : Bool) (selectedRowIds : List String) (rowCount : Nat) :
    getRowsToVerify gridRows emailColId (some sc) selectedMode selectedRowIds rowCount false
      = (if selectedMode then
            gridRows.filter (fun row => selectedRowIds.contains row.rowId)
          else
            gridRows.take rowCount).filter
          (fun row => hasEmailVal (rowVal row emailColId)) := rfl

/-- C6: with skip-existing enabled every selected candidate has a missing
target-column value (non-empty rows are excluded); with it disabled the
candidate set is exactly the first `rowCount` rows; for email verification
every candidate has a non-blank email, and with skip-verified enabled (and an
existing status column) every candidate has no status value yet. -/
theorem skip_existing_semantics (gridRows : List GridRow) (columnId : String)
    (rowCount : Nat) (emailColId sc : String) (selectedMode : Bool)
    (selectedRowIds : List String) (statusColId : Option String) (skipVerified : Bool) :
    (∀ row ∈ getRowsToRun gridRows columnId rowCount true,
        isMissingVal (rowVal row columnId) = true)
      ∧ getRowsToRun gridRows columnId rowCount false = gridRows.take rowCount
      ∧ (∀ row ∈ getRowsToVerify gridRows emailColId statusColId selectedMode
            selectedRowIds rowCount skipVerified,
          hasEmailVal (rowVal row emailColId) = true)
      ∧ (∀ row ∈ getRowsToVerify gridRows emailColId (some sc) selectedMode
            selectedRowIds rowCount true,
          isMissingVal (rowVal row sc) = true) := by
  refine ⟨?_, rfl, ?_, ?_⟩
  · intro row hrow
    have hrow' : row ∈ (gridRows.take rowCount).filter
        (fun row => isMissingVal (rowVal row columnId)) := hrow
    exact (List.mem_filter.mp hrow').2
  · intro row hrow
    cases statusColId with
    | none =>
      rw [getRowsToVerify_none] at hrow
      exact (List.mem_filter.mp hrow).2
    | some sc' =>
      cases skipVerified with
      | true =>
        rw [getRowsToVerify_some_skip] at hrow
        exact (List.mem_filter.mp (List.mem_filter.mp hrow).1).2
      | false =>
        rw [getRowsToVerify_some_noskip] at hrow
        exact (List.mem_filter.mp hrow).2
  · intro row hrow
    rw [getRowsToVerify_some_skip] at hrow
    exact (List.mem_filter.mp hrow).2

/-- Witness for C6: a row with an existing value is skipped; a row without one
is selected and indeed has a missing value. -/
theorem skip_existing_semantics_witness :
    getRowsToRun [⟨"r0", []⟩, ⟨"r1", [("c", "x")]⟩] "c" 2 true = [⟨"r0", []⟩]
      ∧ getRowsToRun [⟨"r0", []⟩, ⟨"r1", [("c", "x")]⟩] "c" 2 false
          = [⟨"r0", []⟩, ⟨"r1", [("c", "x")]⟩]
      ∧ isMissingVal (rowVal ⟨"r0", []⟩ "c") = true := by
  refine ⟨by decide, by decide, ?_⟩
  exact (skip_existing_semantics [⟨"r0", []⟩, ⟨"r1", [("c", "x")]⟩] "c" 2 "e" "s"
    false [] none false).1 ⟨"r0", []⟩ (by decide)

end Claykiller
